import Mathlib

/-!
Shallow embedding of the repository's two algorithmic components:

* `DataProcessor` (src/examples/data_processor.py): an append-only numeric
  sequence with three operations, `add_numbers` (the spec's `ingest`),
  `running_average` (the spec's `runningAverages`) and `find_peaks`.
* `Solver` (src/examples/solve.py): four pure functions, `is_palindrome`,
  `find_factors`, `are_anagrams`, `get_permutations`.

Python numbers (int / float) are modelled by `ℚ`; a dynamically typed
Python value passed to a validating operation is modelled by `PyVal`.
A raised `ValueError` is modelled by an `Except`/`Option` error component.
-/

namespace Replstash

/-- A dynamically typed Python value, as far as the validation code
inspects it: an `int`, a `float`, or some non-numeric value (modelled by a
string, which is how the offending values appear in the repository). -/
inductive PyVal : Type where
  | int (z : ℤ)
  | float (q : ℚ)
  | str (s : String)
deriving DecidableEq, Repr

/-- `isinstance(v, (int, float))` from the Python source. -/
def PyVal.isNum : PyVal → Bool
  | .int _ => true
  | .float _ => true
  | .str _ => false

/-- The numeric content of a numeric `PyVal` (junk `0` on the non-numeric
constructor, which validation rejects before this is ever used). -/
def PyVal.toQ : PyVal → ℚ
  | .int z => (z : ℚ)
  | .float q => q
  | .str _ => 0

/-! ## DataProcessor (src/examples/data_processor.py)

The processor state is its `data` list.  Each method is embedded as a
function of the incoming state; methods that mutate return the new state.
-/

/-- `DataProcessor.add_numbers`: iterate over the call's values; a numeric
value is appended to `data` at once, a non-numeric value raises
`ValueError` (returned as `some v`, identifying the offending value `v`)
and stops the loop.  The returned list is the stored sequence after the
call, mutations made before the raise included. -/
def add_numbers (data : List ℚ) : List PyVal → List ℚ × Option PyVal
  | [] => (data, none)
  | v :: rest =>
    if v.isNum then add_numbers (data ++ [v.toQ]) rest
    else (data, some v)

/-- The accumulation loop of `DataProcessor.running_average`:
`total` is the running sum so far and `i` the 1-based index of the next
element (Python's `enumerate(self.data, 1)`). -/
def running_average_go (total : ℚ) (i : ℕ) : List ℚ → List ℚ
  | [] => []
  | num :: rest => ((total + num) / (i : ℚ)) :: running_average_go (total + num) (i + 1) rest

/-- `DataProcessor.running_average`: empty result on empty data, otherwise
one prefix mean per element, in ingestion order. -/
def running_average (data : List ℚ) : List ℚ :=
  if data = [] then [] else running_average_go 0 1 data

/-- The peak test applied by `DataProcessor.find_peaks` at index `i`
(element strictly above both neighbours and, when given, the threshold).
Out-of-range reads default to `0`; the caller only uses interior indices,
where no default is ever taken. -/
def is_peak (data : List ℚ) (threshold : Option ℚ) (i : ℕ) : Bool :=
  decide (data.getD (i - 1) 0 < data.getD i 0) &&
    decide (data.getD (i + 1) 0 < data.getD i 0) &&
    match threshold with
    | none => true
    | some t => decide (t < data.getD i 0)

/-- `DataProcessor.find_peaks`: fewer than 3 elements gives `[]`;
otherwise scan `range(1, len(data) - 1)` and collect `(i, data[i])` for
every index passing `is_peak`, in ascending index order. -/
def find_peaks (data : List ℚ) (threshold : Option ℚ) : List (ℕ × ℚ) :=
  if data.length < 3 then []
  else ((List.range' 1 (data.length - 2)).filter (is_peak data threshold)).map
    fun i => (i, data.getD i 0)

/-! ## Solver (src/examples/solve.py) -/

/-- The normalisation shared by `is_palindrome` and `are_anagrams`:
keep only alphanumeric characters, case-fold
(`char.lower() for char in text if char.isalnum()`). -/
def normalize (text : String) : List Char :=
  (text.data.filter Char.isAlphanum).map Char.toLower

/-- `Solver.is_palindrome`: the normalised text equals its reverse. -/
def is_palindrome (text : String) : Bool :=
  normalize text == (normalize text).reverse

/-- `Solver.find_factors`: `ValueError` (as `Except.error`) unless the
input is a positive Python `int`; otherwise every `i` in `[1, n]` with
`n % i == 0`, ascending. -/
def find_factors : PyVal → Except String (List ℤ)
  | .int n =>
    if n ≤ 0 then .error "Input must be positive"
    else .ok (((List.range' 1 n.toNat).map fun i : ℕ => (i : ℤ)).filter fun i => n % i == 0)
  | _ => .error "Input must be an integer"

/-- Equality of the two character-frequency dictionaries built by
`Solver.are_anagrams`: the dictionaries hold exactly the characters
occurring in their list, so `freq1 == freq2` holds iff every character of
either list has the same count in both. -/
def freq_dict_eq (l1 l2 : List Char) : Bool :=
  (l1 ++ l2).all fun c => l1.count c == l2.count c

/-- `Solver.are_anagrams`: normalise both inputs; `false` when either
normalised string is empty, otherwise equality of the two
character-frequency dictionaries. -/
def are_anagrams (str1 str2 : String) : Bool :=
  if (normalize str1).isEmpty || (normalize str2).isEmpty then false
  else freq_dict_eq (normalize str1) (normalize str2)

/-- `Solver.get_permutations`: inputs of length ≤ 1 give `[items]`;
otherwise, for each index `i` in input order, fix `items[i]` as head
(`current`) and prepend it to each permutation of
`items[:i] + items[i+1:]` (that is `items.take i ++ rest` where
`items.drop i = current :: rest`). -/
def get_permutations {α : Type} (items : List α) : List (List α) :=
  if items.length ≤ 1 then [items]
  else (List.range items.length).flatMap fun i =>
    match h : items.drop i with
    | [] => []
    | current :: rest =>
      (get_permutations (items.take i ++ rest)).map fun p => current :: p
termination_by items.length
decreasing_by
  have hlen := congrArg List.length h
  simp only [List.length_drop, List.length_cons] at hlen
  simp only [List.length_append, List.length_take]
  omega

/-- Fuel-indexed companion of `get_permutations`, structurally recursive on
`fuel` so that concrete inputs evaluate by kernel reduction; it agrees with
`get_permutations` whenever `fuel` is at least `items.length`
(`get_permutations_fuel_eq`). -/
def get_permutations_fuel {α : Type} : ℕ → List α → List (List α)
  | 0, items => [items]
  | fuel + 1, items =>
    if items.length ≤ 1 then [items]
    else (List.range items.length).flatMap fun i =>
      match items.drop i with
      | [] => []
      | current :: rest =>
        (get_permutations_fuel fuel (items.take i ++ rest)).map fun p => current :: p

theorem get_permutations_fuel_eq {α : Type} :
    ∀ (fuel : ℕ) (items : List α), items.length ≤ fuel + 1 →
      get_permutations_fuel fuel items = get_permutations items := by
  intro fuel
  induction fuel with
  | zero =>
    intro items h
    rw [get_permutations, get_permutations_fuel]
    have h1 : items.length ≤ 1 := h
    simp [h1]
  | succ fuel ih =>
    intro items h
    rw [get_permutations, get_permutations_fuel]
    by_cases h1 : items.length ≤ 1
    · simp [h1]
    · simp only [h1, if_false]
      congr 1
      funext i
      cases h2 : items.drop i with
      | nil => rfl
      | cons current rest =>
        have hlen := congrArg List.length h2
        simp only [List.length_drop, List.length_cons] at hlen
        dsimp only
        rw [ih _ (by simp only [List.length_append, List.length_take]; omega)]

theorem get_permutations_eq_fuel {α : Type} (items : List α) :
    get_permutations items = get_permutations_fuel items.length items :=
  (get_permutations_fuel_eq items.length items (Nat.le_succ _)).symm

theorem get_permutations_fuel_length {α : Type} :
    ∀ (fuel : ℕ) (items : List α), items.length ≤ fuel + 1 →
      (get_permutations_fuel fuel items).length = Nat.factorial items.length := by
  intro fuel
  induction fuel with
  | zero =>
    intro items h
    have h1 : items.length = 0 ∨ items.length = 1 := by omega
    rcases h1 with h1 | h1 <;>
      simp [get_permutations_fuel, h1, Nat.factorial]
  | succ fuel ih =>
    intro items h
    rw [get_permutations_fuel]
    by_cases h1 : items.length ≤ 1
    · have h2 : items.length = 0 ∨ items.length = 1 := by omega
      rcases h2 with h2 | h2 <;> simp [h1, h2, Nat.factorial]
    · simp only [h1, if_false]
      rw [List.length_flatMap]
      have hmap : ∀ i ∈ List.range items.length,
          (List.length ∘ fun i => match items.drop i with
            | [] => []
            | current :: rest =>
              (get_permutations_fuel fuel (items.take i ++ rest)).map
                fun p => current :: p) i
            = Nat.factorial (items.length - 1) := by
        intro i hi
        have hi' : i < items.length := List.mem_range.mp hi
        have hd := List.drop_eq_getElem_cons hi'
        have hlen := congrArg List.length hd
        simp only [List.length_drop, List.length_cons] at hlen
        simp only [Function.comp_apply, hd, List.length_map]
        rw [ih _ (by
          simp only [List.length_append, List.length_take, List.length_drop]; omega)]
        congr 1
        simp only [List.length_append, List.length_take, List.length_drop]
        omega
      rw [List.map_congr_left hmap]
      have hn : items.length - 1 + 1 = items.length := by omega
      calc ((List.range items.length).map fun _ => Nat.factorial (items.length - 1)).sum
          = items.length * Nat.factorial (items.length - 1) := by
            rw [List.map_const']
            simp [List.sum_replicate, smul_eq_mul]
        _ = Nat.factorial items.length := by
            conv_rhs => rw [← hn]
            rw [Nat.factorial_succ, hn]

theorem get_permutations_fuel_perm {α : Type} :
    ∀ (fuel : ℕ) (items : List α), items.length ≤ fuel + 1 →
      ∀ p ∈ get_permutations_fuel fuel items, p.Perm items := by
  intro fuel
  induction fuel with
  | zero =>
    intro items h p hp
    rw [get_permutations_fuel, List.mem_singleton] at hp
    exact hp ▸ List.Perm.refl items
  | succ fuel ih =>
    intro items h p hp
    rw [get_permutations_fuel] at hp
    by_cases h1 : items.length ≤ 1
    · rw [if_pos h1, List.mem_singleton] at hp
      exact hp ▸ List.Perm.refl items
    · rw [if_neg h1, List.mem_flatMap] at hp
      obtain ⟨i, hi, hpi⟩ := hp
      have hi' : i < items.length := List.mem_range.mp hi
      have hd := List.drop_eq_getElem_cons hi'
      have hlen := congrArg List.length hd
      simp only [List.length_drop, List.length_cons] at hlen
      rw [hd] at hpi
      simp only [List.mem_map] at hpi
      obtain ⟨q, hq, rfl⟩ := hpi
      have hq' : q.Perm (items.take i ++ items.drop (i + 1)) :=
        ih _ (by
          simp only [List.length_append, List.length_take, List.length_drop]
          omega) q hq
      have h3 : (items[i] :: q).Perm (items.take i ++ items[i] :: items.drop (i + 1)) :=
        (hq'.cons _).trans List.perm_middle.symm
      have h4 : items.take i ++ items[i] :: items.drop (i + 1) = items := by
        rw [← hd, List.take_append_drop]
      exact h3.trans (by rw [h4])

/-! ## Processor state threading

The Python query methods read `self.data` and never assign to it; embedded
as state transformers they return the result together with the state the
method leaves behind. -/

/-- The processor object: its only field is the stored sequence. -/
structure DataProcessor : Type where
  data : List ℚ
deriving DecidableEq

/-- Calling `running_average()` on a processor: the method body only reads
`self.data`, so the state it leaves behind is the incoming state. -/
def running_average_call (p : DataProcessor) : List ℚ × DataProcessor :=
  (running_average p.data, p)

/-- Calling `find_peaks(threshold)` on a processor: the method body only
reads `self.data`, so the state it leaves behind is the incoming state. -/
def find_peaks_call (p : DataProcessor) (t : Option ℚ) :
    List (ℕ × ℚ) × DataProcessor :=
  (find_peaks p.data t, p)

/-- Calling `add_numbers(values)` on a processor: returns the raised error
(if any) and the state after the call. -/
def add_numbers_call (p : DataProcessor) (values : List PyVal) :
    Option PyVal × DataProcessor :=
  ((add_numbers p.data values).2, ⟨(add_numbers p.data values).1⟩)

/-! ## Claim theorems -/

/-- Claim C7: for every input string, `is_palindrome` returns true iff the
normalised string (alphanumeric only, case-folded) equals its own reverse;
empty or single-character normalised strings yield true; in particular
`is_palindrome "A man a plan a canal Panama" = true` and
`is_palindrome "hello" = false`. -/
theorem claim_C7 (text : String) :
    (is_palindrome text = true ↔ normalize text = (normalize text).reverse) ∧
    ((normalize text).length ≤ 1 → is_palindrome text = true) ∧
    is_palindrome "A man a plan a canal Panama" = true ∧
    is_palindrome "hello" = false := by
  refine ⟨?_, ?_, by decide, by decide⟩
  · rw [is_palindrome, beq_iff_eq]
  · intro h
    rw [is_palindrome, beq_iff_eq]
    rcases Nat.le_one_iff_eq_zero_or_eq_one.mp h with h1 | h1
    · rw [List.length_eq_zero.mp h1]
      rfl
    · obtain ⟨a, ha⟩ := List.length_eq_one.mp h1
      rw [ha]
      rfl

theorem claim_C7_witness : is_palindrome "x" = true :=
  (claim_C7 "x").2.1 (by decide)

/-- Claim C6: `are_anagrams` returns false whenever either normalised
string is empty (in particular on two empty inputs), and otherwise returns
true iff the two character-frequency maps agree on every character; in
particular `are_anagrams "listen" "silent" = true`. -/
theorem claim_C6 (a b : String) :
    ((normalize a = [] ∨ normalize b = []) → are_anagrams a b = false) ∧
    (normalize a ≠ [] → normalize b ≠ [] →
      (are_anagrams a b = true ↔
        ∀ c : Char, (normalize a).count c = (normalize b).count c)) ∧
    are_anagrams "" "" = false ∧
    are_anagrams "listen" "silent" = true := by
  refine ⟨?_, ?_, by decide, by decide⟩
  · intro h
    rw [are_anagrams, if_pos]
    rcases h with h | h <;> simp [h]
  · intro ha hb
    rw [are_anagrams,
      if_neg (by simp only [Bool.or_eq_true, List.isEmpty_iff]; tauto),
      freq_dict_eq]
    constructor
    · intro h c
      by_cases hc : c ∈ normalize a ++ normalize b
      · exact beq_iff_eq.mp (List.all_eq_true.mp h c hc)
      · rw [List.count_eq_zero.mpr fun h' => hc (List.mem_append.mpr (Or.inl h')),
          List.count_eq_zero.mpr fun h' => hc (List.mem_append.mpr (Or.inr h'))]
    · intro h
      exact List.all_eq_true.mpr fun c _ => beq_iff_eq.mpr (h c)

theorem claim_C6_witness :
    are_anagrams "listen" "silent" = true ↔
      ∀ c : Char, (normalize "listen").count c = (normalize "silent").count c :=
  (claim_C6 "listen" "silent").2.1 (by decide) (by decide)

/-- Claim C8: with no intervening ingest, repeated calls to
`running_average` and to `find_peaks` (same threshold) return identical
results, and neither query changes the stored sequence. -/
theorem claim_C8 (p : DataProcessor) (t : Option ℚ) :
    (running_average_call ((running_average_call p).2)).1
        = (running_average_call p).1 ∧
    (find_peaks_call ((find_peaks_call p t).2) t).1 = (find_peaks_call p t).1 ∧
    (running_average_call p).2 = p ∧
    (find_peaks_call p t).2 = p :=
  ⟨rfl, rfl, rfl, rfl⟩

/-- Claim C5: `find_factors` errors iff the input is not a (positive)
integer; on a positive integer `n` it returns exactly the divisors of `n`
in `[1, n]`, ascending; in particular `find_factors 28` is
`[1, 2, 4, 7, 14, 28]` and inputs `0` and `-3` error. -/
theorem claim_C5 :
    (∀ v : PyVal,
      (∃ msg, find_factors v = .error msg) ↔ ¬∃ n : ℤ, v = .int n ∧ 0 < n) ∧
    (∀ n : ℤ, 0 < n → ∃ l : List ℤ,
      find_factors (.int n) = .ok l ∧
      (∀ m : ℤ, m ∈ l ↔ 1 ≤ m ∧ m ≤ n ∧ m ∣ n) ∧
      l.Pairwise (· < ·)) ∧
    find_factors (.int 28) = .ok [1, 2, 4, 7, 14, 28] ∧
    (∃ msg, find_factors (.int 0) = .error msg) ∧
    (∃ msg, find_factors (.int (-3)) = .error msg) := by
  refine ⟨?_, ?_, by rfl, ⟨_, rfl⟩, ⟨_, rfl⟩⟩
  · intro v
    cases v with
    | int n =>
      by_cases hn : n ≤ 0
      · simp only [find_factors, if_pos hn]
        constructor
        · rintro - ⟨n', hn', hpos⟩
          rw [PyVal.int.injEq] at hn'
          omega
        · intro _
          exact ⟨_, rfl⟩
      · simp only [find_factors, if_neg hn]
        constructor
        · rintro ⟨msg, hmsg⟩
          exact absurd hmsg (by simp)
        · intro hcon
          exact absurd ⟨n, rfl, by omega⟩ hcon
    | float q =>
      simp only [find_factors]
      constructor
      · rintro - ⟨n', hn', -⟩
        exact PyVal.noConfusion hn'
      · intro _
        exact ⟨_, rfl⟩
    | str s =>
      simp only [find_factors]
      constructor
      · rintro - ⟨n', hn', -⟩
        exact PyVal.noConfusion hn'
      · intro _
        exact ⟨_, rfl⟩
  · intro n hn
    refine ⟨_, by rw [find_factors, if_neg (by omega)], ?_, ?_⟩
    · intro m
      simp only [List.mem_filter, List.mem_map, List.mem_range'_1]
      constructor
      · rintro ⟨⟨k, ⟨hk1, hk2⟩, rfl⟩, hdvd⟩
        exact ⟨by omega, by omega,
          Int.dvd_of_emod_eq_zero (beq_iff_eq.mp hdvd)⟩
      · rintro ⟨h1, h2, hdvd⟩
        exact ⟨⟨m.toNat, ⟨by omega, by omega⟩, by omega⟩,
          beq_iff_eq.mpr (Int.emod_eq_zero_of_dvd hdvd)⟩
    · exact List.Pairwise.filter _
        ((List.pairwise_lt_range' 1 n.toNat).map _ fun a b hab => by exact_mod_cast hab)

theorem claim_C5_witness :
    ∃ l : List ℤ, find_factors (.int 6) = .ok l ∧
      (∀ m : ℤ, m ∈ l ↔ 1 ≤ m ∧ m ≤ 6 ∧ m ∣ 6) ∧
      l.Pairwise (· < ·) :=
  claim_C5.2.1 6 (by decide)

/-- The peak condition at index `i` spelled out: strictly above both
neighbours and above the threshold when one is supplied. -/
theorem is_peak_eq_true_iff (data : List ℚ) (t : Option ℚ) (i : ℕ) :
    is_peak data t i = true ↔
      data.getD (i - 1) 0 < data.getD i 0 ∧
      data.getD (i + 1) 0 < data.getD i 0 ∧
      ∀ th, t = some th → th < data.getD i 0 := by
  cases t <;> simp [is_peak, and_assoc]

/-- Claim C3: `find_peaks` on fewer than 3 elements returns `[]` (not an
error); otherwise it returns, in ascending index order, exactly the pairs
`(i, data[i])` for interior indices whose element is strictly greater than
both neighbours and, when supplied, the threshold. -/
theorem claim_C3 (data : List ℚ) (t : Option ℚ) :
    (data.length < 3 → find_peaks data t = []) ∧
    List.Pairwise (fun p q => p.1 < q.1) (find_peaks data t) ∧
    (∀ i v, (i, v) ∈ find_peaks data t ↔
      0 < i ∧ i + 1 < data.length ∧ v = data.getD i 0 ∧
      data.getD (i - 1) 0 < v ∧ data.getD (i + 1) 0 < v ∧
      ∀ th, t = some th → th < v) := by
  refine ⟨fun h => by rw [find_peaks, if_pos h], ?_, ?_⟩
  · rw [find_peaks]
    split
    · exact List.Pairwise.nil
    · exact ((List.pairwise_lt_range' 1 (data.length - 2)).filter _).map _
        fun a b hab => hab
  · intro i v
    rw [find_peaks]
    split
    case isTrue h =>
      simp only [List.not_mem_nil, false_iff]
      rintro ⟨h1, h2, -⟩
      omega
    case isFalse h =>
      rw [List.mem_map]
      constructor
      · rintro ⟨j, hj, hjeq⟩
        obtain ⟨hj1, hj2⟩ := List.mem_filter.mp hj
        obtain ⟨hjl, hjr⟩ := List.mem_range'_1.mp hj1
        obtain ⟨rfl, rfl⟩ : j = i ∧ (j, data.getD j 0).2 = v := by
          rw [Prod.mk.injEq] at hjeq
          exact ⟨hjeq.1, hjeq.2⟩
        obtain ⟨hp1, hp2, hp3⟩ := (is_peak_eq_true_iff data t j).mp hj2
        exact ⟨by omega, by omega, rfl, hp1, hp2, hp3⟩
      · rintro ⟨hi, hil, rfl, hp1, hp2, hp3⟩
        exact ⟨i, List.mem_filter.mpr ⟨List.mem_range'_1.mpr ⟨hi, by omega⟩,
          (is_peak_eq_true_iff data t i).mpr ⟨hp1, hp2, hp3⟩⟩, rfl⟩

theorem claim_C3_witness :
    find_peaks [(1 : ℚ), 2] none = [] ∧
    ((1, (5 : ℚ)) ∈ find_peaks [(1 : ℚ), 5, 1] none ↔
      0 < 1 ∧ 1 + 1 < ([(1 : ℚ), 5, 1] : List ℚ).length ∧
      (5 : ℚ) = ([(1 : ℚ), 5, 1] : List ℚ).getD 1 0 ∧
      ([(1 : ℚ), 5, 1] : List ℚ).getD 0 0 < 5 ∧
      ([(1 : ℚ), 5, 1] : List ℚ).getD 2 0 < 5 ∧
      ∀ th, (none : Option ℚ) = some th → th < 5) :=
  ⟨(claim_C3 [(1 : ℚ), 2] none).1 (by decide),
    (claim_C3 [(1 : ℚ), 5, 1] none).2.2 1 5⟩

theorem running_average_go_length (total : ℚ) (i : ℕ) (l : List ℚ) :
    (running_average_go total i l).length = l.length := by
  induction l generalizing total i with
  | nil => rfl
  | cons x xs ih => simp [running_average_go, ih]

theorem running_average_go_getD (l : List ℚ) :
    ∀ (total : ℚ) (i k : ℕ), k < l.length →
      (running_average_go total i l).getD k 0
        = (total + (l.take (k + 1)).sum) / ((i + k : ℕ) : ℚ) := by
  induction l with
  | nil =>
    intro total i k h
    simp at h
  | cons x xs ih =>
    intro total i k h
    cases k with
    | zero =>
      simp [running_average_go, List.take_succ_cons]
    | succ k =>
      rw [running_average_go, List.getD_cons_succ,
        ih (total + x) (i + 1) k (by simpa using h),
        List.take_succ_cons, List.sum_cons, ← add_assoc,
        show i + 1 + k = i + (k + 1) by omega]

/-- Claim C4: `running_average` is empty on empty data, has the same
length as the data otherwise, and its entry at position `i` is the
arithmetic mean of the first `i + 1` elements in ingestion order. -/
theorem claim_C4 (data : List ℚ) :
    (data = [] → running_average data = []) ∧
    (running_average data).length = data.length ∧
    (∀ i, i < data.length →
      (running_average data).getD i 0
        = (data.take (i + 1)).sum / ((i + 1 : ℕ) : ℚ)) := by
  refine ⟨fun h => by rw [running_average, if_pos h], ?_, ?_⟩
  · rw [running_average]
    split
    case isTrue h => rw [h]
    case isFalse h => exact running_average_go_length 0 1 data
  · intro i hi
    have hne : data ≠ [] := by
      intro h
      rw [h] at hi
      simp at hi
    rw [running_average, if_neg hne, running_average_go_getD data 0 1 i hi,
      zero_add, show 1 + i = i + 1 by omega]

theorem claim_C4_witness :
    (running_average [(1 : ℚ), 3]).getD 1 0
      = (([(1 : ℚ), 3] : List ℚ).take 2).sum / ((2 : ℕ) : ℚ) :=
  (claim_C4 [(1 : ℚ), 3]).2.2 1 (by decide)

/-- Splitting the threshold test out of the peak test. -/
theorem is_peak_some_eq (data : List ℚ) (t : ℚ) (i : ℕ) :
    is_peak data (some t) i
      = (is_peak data none i && decide (t < data.getD i 0)) := by
  simp only [is_peak, Bool.and_true]

/-- Claim C9: for a sequence of at least 3 elements, the thresholded peak
list is the unthresholded one filtered to values strictly above the
threshold; in particular it is a sublist of the unthresholded one. -/
theorem claim_C9 (data : List ℚ) (t : ℚ) (h3 : 3 ≤ data.length) :
    find_peaks data (some t)
        = (find_peaks data none).filter (fun p => decide (t < p.2)) ∧
    (find_peaks data (some t)).Sublist (find_peaks data none) := by
  have hmain : find_peaks data (some t)
      = (find_peaks data none).filter (fun p => decide (t < p.2)) := by
    rw [find_peaks, find_peaks, if_neg (by omega), if_neg (by omega),
      List.filter_map, List.filter_filter]
    congr 1
    apply List.filter_congr
    intro i _
    rw [is_peak_some_eq]
    simp only [Function.comp_apply]
    rw [Bool.and_comm]
  exact ⟨hmain, hmain ▸ List.filter_sublist _⟩

theorem claim_C9_witness :
    find_peaks [(1 : ℚ), 5, 1] (some 2)
        = (find_peaks [(1 : ℚ), 5, 1] none).filter (fun p => decide ((2 : ℚ) < p.2)) ∧
    (find_peaks [(1 : ℚ), 5, 1] (some 2)).Sublist (find_peaks [(1 : ℚ), 5, 1] none) :=
  claim_C9 [(1 : ℚ), 5, 1] 2 (by decide)

/-- What one `add_numbers` call does, in closed form: the numeric values
before the first non-numeric one are appended, and the error (if any) is
the first non-numeric value of the call. -/
theorem add_numbers_spec :
    ∀ (vals : List PyVal) (data : List ℚ),
      add_numbers data vals
        = (data ++ (vals.takeWhile PyVal.isNum).map PyVal.toQ,
           (vals.dropWhile PyVal.isNum).head?) := by
  intro vals
  induction vals with
  | nil =>
    intro data
    simp [add_numbers]
  | cons v rest ih =>
    intro data
    rw [add_numbers]
    by_cases hv : v.isNum = true
    · rw [if_pos hv, ih, List.takeWhile_cons, if_pos hv,
        List.dropWhile_cons, if_pos hv]
      simp [List.append_assoc]
    · rw [if_neg hv, List.takeWhile_cons, if_neg hv,
        List.dropWhile_cons, if_neg hv]
      simp

/-- Claim C1 as stated is false: starting from the empty sequence, the
call `add_numbers [] [1, "x"]` raises on `"x"` but has already appended
`1`, so the stored sequence is not left unchanged. -/
theorem claim_C1_counterexample :
    (add_numbers [] [PyVal.int 1, PyVal.str "x"]).2 = some (PyVal.str "x") ∧
    (add_numbers [] [PyVal.int 1, PyVal.str "x"]).1 = [(1 : ℚ)] ∧
    [(1 : ℚ)] ≠ ([] : List ℚ) := by
  refine ⟨rfl, ?_, by decide⟩
  show [] ++ [PyVal.toQ (PyVal.int 1)] = [(1 : ℚ)]
  norm_num [PyVal.toQ]

/-- Claim C1 amended: an `add_numbers` call containing a non-numeric value
fails with the error identifying the first non-numeric value, and the
stored sequence becomes the old sequence extended by exactly the numeric
values preceding that first non-numeric one (the insertion is not
atomic). -/
theorem claim_C1_amended (data : List ℚ) (vals : List PyVal)
    (h : ∃ v ∈ vals, v.isNum = false) :
    (add_numbers data vals).2 = (vals.dropWhile PyVal.isNum).head? ∧
    (add_numbers data vals).2.isSome = true ∧
    (add_numbers data vals).1
      = data ++ (vals.takeWhile PyVal.isNum).map PyVal.toQ := by
  rw [add_numbers_spec]
  refine ⟨rfl, ?_, rfl⟩
  obtain ⟨v, hv, hvn⟩ := h
  have hne : vals.dropWhile PyVal.isNum ≠ [] := by
    intro hnil
    have := List.dropWhile_eq_nil_iff.mp hnil v hv
    rw [hvn] at this
    exact Bool.false_ne_true this
  cases hd : vals.dropWhile PyVal.isNum with
  | nil => exact absurd hd hne
  | cons a l => rfl

theorem claim_C1_witness :
    (add_numbers [] [PyVal.int 1, PyVal.str "x"]).2
        = (([PyVal.int 1, PyVal.str "x"] : List PyVal).dropWhile PyVal.isNum).head? ∧
    (add_numbers [] [PyVal.int 1, PyVal.str "x"]).2.isSome = true ∧
    (add_numbers [] [PyVal.int 1, PyVal.str "x"]).1
      = [] ++ (([PyVal.int 1, PyVal.str "x"] : List PyVal).takeWhile PyVal.isNum).map PyVal.toQ :=
  claim_C1_amended [] [PyVal.int 1, PyVal.str "x"]
    ⟨PyVal.str "x", by decide, rfl⟩

/-- Claim C2: `get_permutations` returns `[items]` on inputs of length at
most 1; on longer inputs it is, for each index `i` in input order, the
head `items[i]` prepended to each permutation of the remaining items
(original order with index `i` removed); and on `['A','B','C']` it is the
6 distinct orderings, each exactly once, starting with `['A','B','C']`. -/
theorem claim_C2 :
    (∀ (α : Type) (items : List α), items.length ≤ 1 →
      get_permutations items = [items]) ∧
    (∀ (α : Type) [Inhabited α] (items : List α), 2 ≤ items.length →
      get_permutations items = (List.range items.length).flatMap fun i =>
        (get_permutations (items.take i ++ items.drop (i + 1))).map
          fun p => (items.drop i).headI :: p) ∧
    get_permutations ['A', 'B', 'C']
      = [['A', 'B', 'C'], ['A', 'C', 'B'], ['B', 'A', 'C'],
         ['B', 'C', 'A'], ['C', 'A', 'B'], ['C', 'B', 'A']] ∧
    (get_permutations ['A', 'B', 'C']).length = 6 ∧
    (∀ p ∈ [['A', 'B', 'C'], ['A', 'C', 'B'], ['B', 'A', 'C'],
        ['B', 'C', 'A'], ['C', 'A', 'B'], ['C', 'B', 'A']],
      (get_permutations ['A', 'B', 'C']).count p = 1) ∧
    (get_permutations ['A', 'B', 'C']).head? = some ['A', 'B', 'C'] := by
  have hABC : get_permutations ['A', 'B', 'C']
      = [['A', 'B', 'C'], ['A', 'C', 'B'], ['B', 'A', 'C'],
         ['B', 'C', 'A'], ['C', 'A', 'B'], ['C', 'B', 'A']] := by
    rw [get_permutations_eq_fuel]
    decide
  refine ⟨?_, ?_, hABC, by rw [hABC]; rfl, ?_, by rw [hABC]; rfl⟩
  · intro α items h
    rw [get_permutations, if_pos h]
  · intro α inst items h2
    rw [get_permutations, if_neg (by omega)]
    apply List.flatMap_congr
    intro i hi
    have hi' : i < items.length := List.mem_range.mp hi
    rw [List.drop_eq_getElem_cons hi']
    dsimp only
    rw [List.headI_cons]
  · intro p hp
    rw [hABC]
    fin_cases hp <;> decide

theorem claim_C2_witness :
    get_permutations ([] : List ℕ) = [[]] ∧
    get_permutations [(0 : ℕ)] = [[0]] ∧
    (get_permutations [(0 : ℕ), 1]
      = (List.range 2).flatMap fun i =>
          (get_permutations (([0, 1] : List ℕ).take i ++ ([0, 1] : List ℕ).drop (i + 1))).map
            fun p => (([0, 1] : List ℕ).drop i).headI :: p) ∧
    (get_permutations ['A', 'B', 'C']).count ['C', 'A', 'B'] = 1 :=
  ⟨claim_C2.1 ℕ [] (by decide), claim_C2.1 ℕ [0] (by decide),
    claim_C2.2.1 ℕ [0, 1] (by decide),
    claim_C2.2.2.2.2.1 ['C', 'A', 'B'] (by decide)⟩

/-- Claim C10: `get_permutations` on any input of length N returns exactly
N! sequences, each a rearrangement of the input; duplicate input elements
give repeated output entries rather than a deduplicated result. -/
theorem claim_C10 :
    (∀ (α : Type) (l : List α),
      (get_permutations l).length = Nat.factorial l.length) ∧
    (∀ (α : Type) (l : List α), ∀ p ∈ get_permutations l, p.Perm l) ∧
    get_permutations ['A', 'A'] = [['A', 'A'], ['A', 'A']] ∧
    ¬ (get_permutations ['A', 'A']).Nodup := by
  refine ⟨?_, ?_, ?_, ?_⟩
  · intro α l
    rw [get_permutations_eq_fuel]
    exact get_permutations_fuel_length l.length l (Nat.le_succ _)
  · intro α l p hp
    rw [get_permutations_eq_fuel] at hp
    exact get_permutations_fuel_perm l.length l (Nat.le_succ _) p hp
  · rw [get_permutations_eq_fuel]
    decide
  · rw [get_permutations_eq_fuel]
    decide

theorem claim_C10_witness : (['B', 'A'] : List Char).Perm ['A', 'B'] :=
  claim_C10.2.1 Char ['A', 'B'] ['B', 'A']
    (by rw [get_permutations_eq_fuel]; decide)

end Replstash
